import Mathlib

/-!
Verification of the CipherShare client cryptography library and the
secret-creation flow.

Bytes are modelled as natural numbers below 256.  Text values are modelled as
lists of character codes: the plaintext handed to the cipher is represented by
its UTF-8 byte sequence, while hex strings and base64 strings are represented
by the lists of ASCII codes of their characters.

The AES-256 block transform itself comes from the external CryptoJS library;
it is modelled as an explicit keyed block-function pair `(E, D)` subject to the
block-cipher contract `BlockCipher E D` (a keyed length-preserving invertible
transform on 16-byte blocks).  Everything the repository configures or
implements around that transform — hex parsing of key and IV, PKCS7 padding,
CBC chaining, the base64 codec, the UTF-8 decoding step whose failure the
source converts to `null`, the SHA-256 PIN digest, and the request-building
and file-admission logic of the creation page — is written out explicitly
below.  The backend state machine is not among the sources; its model is
marked as taken from the specification text.
-/

namespace CipherShare

/-! ## Bytewise xor (the CBC chaining step) -/

/-- Bytewise xor of two byte lists. -/
def xorB (a b : List Nat) : List Nat := List.zipWith (fun x y => x ^^^ y) a b

/-! ## Hex codec

`CryptoJS.enc.Hex.parse` turns a hex string into bytes two characters at a
time; `generateEncryptionKey`/`generateIV` build hex strings from bytes with
`byte.toString(16).padStart(2, '0')` (two lowercase hex digits per byte). -/

/-- Value of one hex digit character code (0 for anything else, as the source
feeds only hex strings here). -/
def hexDigitVal (c : Nat) : Nat :=
  if 48 ≤ c ∧ c ≤ 57 then c - 48
  else if 97 ≤ c ∧ c ≤ 102 then c - 97 + 10
  else if 65 ≤ c ∧ c ≤ 70 then c - 65 + 10
  else 0

/-- Character code of a hex digit, lowercase as produced by `toString(16)`. -/
def hexDigitChar (n : Nat) : Nat := if n < 10 then 48 + n else 97 + (n - 10)

/-- Model of `CryptoJS.enc.Hex.parse`: two hex characters per byte. -/
def hexParse : List Nat → List Nat
  | c1 :: c2 :: rest => (hexDigitVal c1 * 16 + hexDigitVal c2) :: hexParse rest
  | _ => []

/-- Model of the hex-encoding loop in `generateEncryptionKey`/`generateIV`:
`Array.from(array, byte => byte.toString(16).padStart(2, '0')).join('')`. -/
def bytesToHex : List Nat → List Nat
  | [] => []
  | b :: rest => hexDigitChar (b / 16) :: hexDigitChar (b % 16) :: bytesToHex rest

/-- Recognizer for the characters `toString(16)` can produce. -/
def isHexDigitCode (c : Nat) : Bool :=
  decide (48 ≤ c ∧ c ≤ 57) || decide (97 ≤ c ∧ c ≤ 102)

/-! ## Base64 codec

The source uses base64 in two places: `encrypted.ciphertext.toString(Base64)` /
`CryptoJS.enc.Base64.parse(ciphertext)` for the ciphertext, and
`arrayBufferToBase64` (`btoa`) / `base64ToArrayBuffer` (`atob`) for file
contents.  Both are the standard alphabet with `=` (code 61) padding. -/

/-- Character code of one sextet in the standard base64 alphabet. -/
def b64Char (n : Nat) : Nat :=
  if n < 26 then 65 + n
  else if n < 52 then 97 + (n - 26)
  else if n < 62 then 48 + (n - 52)
  else if n = 62 then 43
  else 47

/-- Sextet of one base64 alphabet character code. -/
def b64Index (c : Nat) : Nat :=
  if 65 ≤ c ∧ c ≤ 90 then c - 65
  else if 97 ≤ c ∧ c ≤ 122 then c - 97 + 26
  else if 48 ≤ c ∧ c ≤ 57 then c - 48 + 52
  else if c = 43 then 62
  else if c = 47 then 63
  else 0

/-- Base64 encoding of a byte list, producing ASCII codes with `=` padding. -/
def b64Encode : List Nat → List Nat
  | [] => []
  | [a] => [b64Char (a / 4), b64Char (a % 4 * 16), 61, 61]
  | [a, b] => [b64Char (a / 4), b64Char (a % 4 * 16 + b / 16), b64Char (b % 16 * 4), 61]
  | a :: b :: c :: rest =>
      b64Char (a / 4) :: b64Char (a % 4 * 16 + b / 16) :: b64Char (b % 16 * 4 + c / 64)
        :: b64Char (c % 64) :: b64Encode rest

/-- Characters of a base64 string up to the first padding character, as the
decoders in CryptoJS and `atob` consider them. -/
def stripPad : List Nat → List Nat
  | [] => []
  | c :: rest => if c = 61 then [] else c :: stripPad rest

/-- Byte reconstruction from a padding-free sextet-character list. -/
def decSx : List Nat → List Nat
  | c1 :: c2 :: c3 :: c4 :: rest =>
      (b64Index c1 * 4 + b64Index c2 / 16)
        :: (b64Index c2 % 16 * 16 + b64Index c3 / 4)
        :: (b64Index c3 % 4 * 64 + b64Index c4) :: decSx rest
  | [c1, c2, c3] =>
      [b64Index c1 * 4 + b64Index c2 / 16, b64Index c2 % 16 * 16 + b64Index c3 / 4]
  | [c1, c2] => [b64Index c1 * 4 + b64Index c2 / 16]
  | _ => []

/-- Base64 decoding of an ASCII-code list. -/
def b64Decode (s : List Nat) : List Nat := decSx (stripPad s)

/-! ## PKCS7 padding

`CryptoJS.pad.Pkcs7` appends `n` copies of `n` where `n = 16 - len % 16`.
Its `unpad` reads the last byte and removes that many bytes with no
validation (`data.sigBytes -= nPaddingBytes`); a count exceeding the data
length leaves nothing (CryptoJS then stringifies zero bytes). -/

/-- PKCS7 padding to the 16-byte AES block size. -/
def pkcs7pad (l : List Nat) : List Nat :=
  let n := 16 - l.length % 16
  l ++ List.replicate n n

/-- The blind CryptoJS unpadding step: drop as many bytes as the last byte
says, without validating them. -/
def pkcs7unpad (l : List Nat) : List Nat :=
  l.take (l.length - l.reverse.headD 0)

/-- Strict PKCS7 validity — what a validating unpadder would check.  The
source never computes this; it is stated here to express the notion of a
padding-validation failure. -/
def pkcs7Valid (l : List Nat) : Bool :=
  let n := l.reverse.headD 0
  decide (1 ≤ n) && decide (n ≤ 16) && decide (n ≤ l.length) &&
    decide (l.reverse.take n = List.replicate n n)

/-! ## Splitting into cipher blocks

The fuel argument makes the recursion structural, so that everything still
computes by kernel reduction; fuel at least the list length is enough. -/

/-- Split a byte list into consecutive blocks of size `sz`. -/
def chunksF (sz : Nat) : Nat → List Nat → List (List Nat)
  | _, [] => []
  | 0, _ :: _ => []
  | f + 1, a :: l => ((a :: l).take sz) :: chunksF sz f ((a :: l).drop sz)

/-- Block decomposition of a byte list. -/
def chunks (sz : Nat) (l : List Nat) : List (List Nat) := chunksF sz l.length l

/-! ## CBC chaining

`CryptoJS.mode.CBC`: each plaintext block is xored with the previous
ciphertext block (the IV for the first) before the keyed block transform;
decryption inverts this. -/

/-- CBC encryption of a block list under an already-keyed block transform. -/
def cbcE (E : List Nat → List Nat) : List Nat → List (List Nat) → List (List Nat)
  | _, [] => []
  | prev, b :: bs =>
    let c := E (xorB prev b)
    c :: cbcE E c bs

/-- CBC decryption of a block list under an already-keyed block transform. -/
def cbcD (D : List Nat → List Nat) : List Nat → List (List Nat) → List (List Nat)
  | _, [] => []
  | prev, c :: cs => xorB prev (D c) :: cbcD D c cs

/-- Contract of one keyed instance of the external block transform: on a
16-byte block it produces a 16-byte block of bytes and is inverted by the
decryption direction. -/
def BlockFun (E D : List Nat → List Nat) : Prop :=
  ∀ b, b.length = 16 → (∀ x ∈ b, x < 256) →
    (E b).length = 16 ∧ (∀ x ∈ E b, x < 256) ∧ D (E b) = b

/-- Contract of the external AES-256 block cipher as CryptoJS provides it:
for every byte key, a length-preserving invertible transform on 16-byte
blocks. -/
def BlockCipher (E D : List Nat → List Nat → List Nat) : Prop :=
  ∀ k, (∀ x ∈ k, x < 256) → BlockFun (E k) (D k)

/-- The identity block transform; it satisfies the block-cipher contract and
serves to instantiate closed statements about the surrounding pipeline. -/
def idCipher : List Nat → List Nat → List Nat := fun _ b => b

/-! ## UTF-8 validity

`decrypted.toString(CryptoJS.enc.Utf8)` throws on a byte sequence that is not
well-formed UTF-8; the source catches that and returns `null`.  The check is
modelled by a standard multi-byte well-formedness scan. -/

/-- Continuation-byte test for UTF-8. -/
def contByte (c : Nat) : Bool := decide (128 ≤ c) && decide (c < 192)

/-- Fuel-based UTF-8 well-formedness scanner; the second argument counts the
continuation bytes still owed by an open multi-byte sequence. -/
def utf8ValidF : Nat → Nat → List Nat → Bool
  | _, 0, [] => true
  | _, _ + 1, [] => false
  | 0, _, _ :: _ => false
  | f + 1, n + 1, c :: rest => contByte c && utf8ValidF f n rest
  | f + 1, 0, b :: rest =>
    if b < 128 then utf8ValidF f 0 rest
    else if b < 192 then false
    else if b < 224 then utf8ValidF f 1 rest
    else if b < 240 then utf8ValidF f 2 rest
    else if b < 248 then utf8ValidF f 3 rest
    else false

/-- Well-formedness of a byte list as UTF-8. -/
def utf8Valid (l : List Nat) : Bool := utf8ValidF l.length 0 l

/-! ## The text cipher path

`encryptText` generates a fresh IV, hex-parses key and IV, and runs
AES-256-CBC with PKCS7 padding, returning base64 ciphertext together with the
hex IV; `decryptText` reverses it inside a try/catch that turns any decoding
throw into `null`.  The random IV draw is modelled by the `ivHex` argument,
which the function returns unchanged exactly as the source does.  No length
validation of the key or IV appears anywhere in the source, faithfully
reflected here. -/

/-- Result bundle of `encryptText`: base64 ciphertext and the hex IV. -/
structure EncResult where
  ciphertext : List Nat
  iv : List Nat
  deriving DecidableEq

/-- Model of `encryptText` from the source, with the external keyed block
transform `E` explicit and the fresh IV draw passed as `ivHex`. -/
def encryptText (E : List Nat → List Nat → List Nat)
    (plaintext key ivHex : List Nat) : EncResult :=
  let keyBytes := hexParse key
  let ivBytes := hexParse ivHex
  let blocks := chunks 16 (pkcs7pad plaintext)
  { ciphertext := b64Encode (cbcE (E keyBytes) ivBytes blocks).flatten
    iv := ivHex }

/-- Model of `decryptText` from the source: base64-decode, CBC-decrypt,
blind-unpad, then UTF-8 decode; a UTF-8 failure is the `catch` path and
yields `none` (the `null` of the source). -/
def decryptText (D : List Nat → List Nat → List Nat)
    (ciphertext key ivHex : List Nat) : Option (List Nat) :=
  let keyBytes := hexParse key
  let ivBytes := hexParse ivHex
  let plain := pkcs7unpad (cbcD (D keyBytes) ivBytes (chunks 16 (b64Decode ciphertext))).flatten
  if utf8Valid plain then some plain else none

/-! ## The file cipher path

`encryptFile` base64-encodes the raw file bytes (`arrayBufferToBase64`) and
sends the resulting text through the identical AES-256-CBC/PKCS7 steps as
`encryptText`, bundling the metadata; `decryptFile` decrypts the text and
decodes the base64 back to bytes (`base64ToArrayBuffer`), with the same
try/catch-to-`null` convention covering both steps. -/

/-- A selected file: raw content bytes plus metadata. -/
structure FileInput where
  content : List Nat
  name : List Nat
  ftype : List Nat

/-- Result bundle of `encryptFile`. -/
structure FileEnc where
  encryptedData : List Nat
  iv : List Nat
  filename : List Nat
  fileType : List Nat
  fileSize : Nat
  deriving DecidableEq

/-- Model of `encryptFile`: its body performs exactly the `encryptText` steps
on the base64 text of the file content (the fresh IV draw is again the
`ivHex` argument), and carries the file metadata through.  `fileSize` is the
original byte size. -/
def encryptFile (E : List Nat → List Nat → List Nat) (f : FileInput)
    (key ivHex : List Nat) : FileEnc :=
  { encryptedData := (encryptText E (b64Encode f.content) key ivHex).ciphertext
    iv := (encryptText E (b64Encode f.content) key ivHex).iv
    filename := f.name
    fileType := f.ftype
    fileSize := f.content.length }

/-- Model of `decryptFile`: the `decryptText` steps followed by
`base64ToArrayBuffer`; any throw inside the shared try block is the `null`
path. -/
def decryptFile (D : List Nat → List Nat → List Nat)
    (encryptedData key ivHex : List Nat) : Option (List Nat) :=
  match decryptText D encryptedData key ivHex with
  | none => none
  | some s => some (b64Decode s)

/-! ## SHA-256 and the PIN digest

`hashPin` is `CryptoJS.SHA256(pin).toString()`: the SHA-256 digest of the
UTF-8 bytes of the PIN, hex-encoded in lowercase.  SHA-256 is implemented
here in full so that concrete digests compute. -/

/-- Truncation to a 32-bit word. -/
def w32m (x : Nat) : Nat := x % 4294967296

/-- Right rotation of a 32-bit word. -/
def rotr32 (n x : Nat) : Nat := w32m ((x >>> n) ||| (x <<< (32 - n)))

/-- The big sigma-0 function of the SHA-256 compression. -/
def bsig0 (x : Nat) : Nat := rotr32 2 x ^^^ rotr32 13 x ^^^ rotr32 22 x

/-- The big sigma-1 function of the SHA-256 compression. -/
def bsig1 (x : Nat) : Nat := rotr32 6 x ^^^ rotr32 11 x ^^^ rotr32 25 x

/-- The small sigma-0 function of the SHA-256 message schedule. -/
def ssig0 (x : Nat) : Nat := rotr32 7 x ^^^ rotr32 18 x ^^^ (x >>> 3)

/-- The small sigma-1 function of the SHA-256 message schedule. -/
def ssig1 (x : Nat) : Nat := rotr32 17 x ^^^ rotr32 19 x ^^^ (x >>> 10)

/-- The choice function of the SHA-256 compression. -/
def chB (x y z : Nat) : Nat := (x &&& y) ^^^ ((x ^^^ 4294967295) &&& z)

/-- The majority function of the SHA-256 compression. -/
def majB (x y z : Nat) : Nat := (x &&& y) ^^^ (x &&& z) ^^^ (y &&& z)

/-- The SHA-256 round constants, written in decimal. -/
def K256 : List Nat :=
  [1116352408, 1899447441, 3049323471, 3921009573, 961987163,
   1508970993, 2453635748, 2870763221, 3624381080, 310598401,
   607225278, 1426881987, 1925078388, 2162078206, 2614888103,
   3248222580, 3835390401, 4022224774, 264347078, 604807628,
   770255983, 1249150122, 1555081692, 1996064986, 2554220882,
   2821834349, 2952996808, 3210313671, 3336571891, 3584528711,
   113926993, 338241895, 666307205, 773529912, 1294757372,
   1396182291, 1695183700, 1986661051, 2177026350, 2456956037,
   2730485921, 2820302411, 3259730800, 3345764771, 3516065817,
   3600352804, 4094571909, 275423344, 430227734, 506948616,
   659060556, 883997877, 958139571, 1322822218, 1537002063,
   1747873779, 1955562222, 2024104815, 2227730452, 2361852424,
   2428436474, 2756734187, 3204031479, 3329325298]

/-- The SHA-256 initial hash state, written in decimal. -/
def sha256H0 : List Nat :=
  [1779033703, 3144134277, 1013904242, 2773480762,
   1359893119, 2600822924, 528734635, 1541459225]

/-- Big-endian 64-bit byte decomposition of the message bit length. -/
def lenBytes64 (n : Nat) : List Nat :=
  [(n >>> 56) % 256, (n >>> 48) % 256, (n >>> 40) % 256, (n >>> 32) % 256,
   (n >>> 24) % 256, (n >>> 16) % 256, (n >>> 8) % 256, n % 256]

/-- SHA-256 message padding: a 1 bit, zeros to 56 mod 64, the bit length. -/
def sha256pad (msg : List Nat) : List Nat :=
  msg ++ 128 :: (List.replicate ((119 - msg.length % 64) % 64) 0 ++ lenBytes64 (msg.length * 8))

/-- Big-endian 32-bit words from bytes. -/
def bytesToWords : List Nat → List Nat
  | a :: b :: c :: d :: rest => (((a * 256 + b) * 256 + c) * 256 + d) :: bytesToWords rest
  | _ => []

/-- Extension of the 16 block words to the 64 schedule words. -/
def schedule (w : List Nat) : List Nat :=
  (List.range 48).foldl (fun w i =>
    w ++ [w32m (w.getD i 0 + ssig0 (w.getD (i + 1) 0) + w.getD (i + 9) 0
      + ssig1 (w.getD (i + 14) 0))]) w

/-- One round of the SHA-256 compression on the eight-word state. -/
def compressStep (kc wt : Nat) : List Nat → List Nat
  | [a, b, c, d, e, f, g, h] =>
    let t1 := w32m (h + bsig1 e + chB e f g + kc + wt)
    let t2 := w32m (bsig0 a + majB a b c)
    [w32m (t1 + t2), a, b, c, w32m (d + t1), e, f, g]
  | st => st

/-- Processing of one 64-byte block into the hash state. -/
def sha256compress (h : List Nat) (block : List Nat) : List Nat :=
  let w := schedule (bytesToWords block)
  let fin := (List.range 64).foldl (fun st i => compressStep (K256.getD i 0) (w.getD i 0) st) h
  List.zipWith (fun x y => w32m (x + y)) h fin

/-- Big-endian bytes of one 32-bit word. -/
def wordBytes (w : Nat) : List Nat :=
  [(w >>> 24) % 256, (w >>> 16) % 256, (w >>> 8) % 256, w % 256]

/-- The SHA-256 digest (32 bytes) of a byte message. -/
def sha256 (msg : List Nat) : List Nat :=
  ((chunks 64 (sha256pad msg)).foldl sha256compress sha256H0).foldr
    (fun w acc => wordBytes w ++ acc) []

/-- Model of `hashPin`: `CryptoJS.SHA256(pin).toString()` — the hex-encoded
SHA-256 digest of the UTF-8 bytes of the PIN. -/
def hashPin (pin : List Nat) : List Nat := bytesToHex (sha256 pin)

/-! ## Key and IV generation

`crypto.getRandomValues` fills a `Uint8Array`; the random draw is modelled by
the byte-list argument, so the functions capture exactly the hex-encoding the
source performs on it. -/

/-- Model of `generateEncryptionKey`: hex encoding of the 32 random bytes. -/
def generateEncryptionKey (randomBytes : List Nat) : List Nat := bytesToHex randomBytes

/-- Model of `generateIV`: hex encoding of the 16 random bytes. -/
def generateIV (randomBytes : List Nat) : List Nat := bytesToHex randomBytes

/-! ## The creation page (CreateSecret.jsx) -/

/-- The aggregate size limit on selected files: `10 * 1024 * 1024` bytes. -/
def MAX_FILE_SIZE : Nat := 10 * 1024 * 1024

/-- The limit on the number of selected files. -/
def MAX_FILES : Nat := 5

/-- Model of `handleFileSelect` at the level of file sizes: the whole
selection is rejected when it would exceed the file-count limit or the
aggregate-size limit — before any encryption or network call — leaving the
held list unchanged; otherwise the selection is appended. -/
def handleFileSelect (files selected : List Nat) : List Nat :=
  if files.length + selected.length > MAX_FILES then files
  else if files.sum + selected.sum > MAX_FILE_SIZE then files
  else files ++ selected

/-- The admission-control invariant on the client-held file list. -/
def fileInv (files : List Nat) : Prop :=
  files.length ≤ MAX_FILES ∧ files.sum ≤ MAX_FILE_SIZE

/-- Model of the `secretText || ' '` defaulting in `handleCreate`: the empty
string is falsy, so it is replaced by a single space (code 32) before
encryption. -/
def effectiveSecretText (text : List Nat) : List Nat := if text = [] then [32] else text

/-- The payload of the `createSecret` call, with fields for exactly the data
the source sends (lines 132–139): ciphertext, IV, optional PIN digest, the
two metadata values, and the optional file envelopes.  There is no key
field. -/
structure CreateRequest where
  encryptedData : List Nat
  iv : List Nat
  pinHash : Option (List Nat)
  expiryMinutes : Nat
  oneTimeView : Bool
  files : Option (List FileEnc)
  deriving DecidableEq

/-- Model of the payload construction in `handleCreate`: encrypt the secret
text (empty text becomes a single space), hash the PIN when enabled, encrypt
each file under its own fresh IV, and assemble the request from those results
and the metadata.  The per-file IV draws are the `fileIvs` argument. -/
def handleCreate (E : List Nat → List Nat → List Nat) (key secretText : List Nat)
    (usePin : Bool) (pin : List Nat) (expiryMinutes : Nat) (oneTimeView : Bool)
    (files : List FileInput) (textIv : List Nat) (fileIvs : List (List Nat)) :
    CreateRequest :=
  let enc := encryptText E (effectiveSecretText secretText) key textIv
  { encryptedData := enc.ciphertext
    iv := enc.iv
    pinHash := if usePin then some (hashPin pin) else none
    expiryMinutes := expiryMinutes
    oneTimeView := oneTimeView
    files := if files.isEmpty then none
      else some ((files.zip fileIvs).map fun fi => encryptFile E fi.1 key fi.2) }

/-! ## The secret protocol state machine -/

/-- Outcome of a view request. -/
inductive ViewOutcome
  | success
  | pinMismatch
  | gone
  deriving DecidableEq

/-- The server-held envelope state relevant to the view protocol. -/
structure Envelope where
  pinHash : Option (List Nat)
  oneTimeView : Bool
  expiresAt : Nat
  viewed : Bool
  deriving DecidableEq

/-- Modelled from the spec: the backend Secret Protocol State Machine (the
server that stores envelopes and answers view requests) is not among the
sources; only the specification describes it.  A view request checks, in
order, existence, expiry, the exhausted one-time state, and PIN-digest
equality; on success a one-time envelope is marked viewed/deleted atomically
as part of the same response, while a reusable envelope stays retrievable.
The atomicity is captured by `viewStep` being a single transition on the
store. -/
def viewStep (store : Option Envelope) (pin : Option (List Nat)) (now : Nat) :
    ViewOutcome × Option Envelope :=
  match store with
  | none => (ViewOutcome.gone, none)
  | some e =>
    if e.expiresAt < now then (ViewOutcome.gone, none)
    else if e.oneTimeView ∧ e.viewed then (ViewOutcome.gone, some e)
    else if e.pinHash.isSome ∧ pin ≠ e.pinHash then (ViewOutcome.pinMismatch, some e)
    else if e.oneTimeView then (ViewOutcome.success, none)
    else (ViewOutcome.success, some { e with viewed := true })

/-- Modelled from the spec: a sequence of view requests (PIN, time) against
the store, each one an atomic `viewStep` transition, returning the outcomes
in order. -/
def runViews : Option Envelope → List (Option (List Nat) × Nat) → List ViewOutcome
  | _, [] => []
  | store, (pin, t) :: rest =>
    let r := viewStep store pin t
    r.1 :: runViews r.2 rest

/-! ## Theorems -/

theorem xorB_length (a b : List Nat) : (xorB a b).length = min a.length b.length :=
  List.length_zipWith ..

theorem xorB_xorB : ∀ a b : List Nat, a.length = b.length → xorB a (xorB a b) = b
  | [], [], _ => rfl
  | [], _ :: _, h => by simp at h
  | _ :: _, [], h => by simp at h
  | x :: xs, y :: ys, h => by
    have ih := xorB_xorB xs ys (by simpa using h)
    simp only [xorB, List.zipWith_cons_cons] at *
    refine congrArg₂ List.cons ?_ ih
    show x ^^^ (x ^^^ y) = y
    rw [← Nat.xor_assoc, Nat.xor_self, Nat.zero_xor]

theorem xorB_lt : ∀ a b : List Nat, (∀ x ∈ a, x < 256) → (∀ x ∈ b, x < 256) →
    ∀ x ∈ xorB a b, x < 256
  | [], _, _, _ => by simp [xorB]
  | _ :: _, [], _, _ => by simp [xorB]
  | x :: xs, y :: ys, ha, hb => by
    intro z hz
    simp only [xorB, List.zipWith_cons_cons, List.mem_cons] at hz
    rcases hz with rfl | hz
    · have hx : x < 2 ^ 8 := ha x (by simp)
      have hy : y < 2 ^ 8 := hb y (by simp)
      exact Nat.xor_lt_two_pow hx hy
    · exact xorB_lt xs ys (fun u hu => ha u (by simp [hu]))
        (fun u hu => hb u (by simp [hu])) z hz

theorem hexDigitVal_lt (c : Nat) : hexDigitVal c < 16 := by
  unfold hexDigitVal; split <;> [omega; split <;> [omega; split <;> omega]]

theorem hexParse_lt : ∀ s : List Nat, ∀ x ∈ hexParse s, x < 256
  | [] => by simp [hexParse]
  | [_] => by simp [hexParse]
  | c1 :: c2 :: rest => by
    intro x hx
    simp only [hexParse, List.mem_cons] at hx
    rcases hx with rfl | hx
    · have h1 := hexDigitVal_lt c1
      have h2 := hexDigitVal_lt c2
      omega
    · exact hexParse_lt rest x hx

theorem hexDigitVal_hexDigitChar (n : Nat) (h : n < 16) :
    hexDigitVal (hexDigitChar n) = n := by
  interval_cases n <;> rfl

theorem bytesToHex_length (l : List Nat) : (bytesToHex l).length = 2 * l.length := by
  induction l with
  | nil => rfl
  | cons b rest ih => simp only [bytesToHex, List.length_cons, ih]; omega

theorem hexParse_bytesToHex (l : List Nat) (h : ∀ x ∈ l, x < 256) :
    hexParse (bytesToHex l) = l := by
  induction l with
  | nil => rfl
  | cons b rest ih =>
    have hb : b < 256 := h b (by simp)
    simp only [bytesToHex, hexParse]
    rw [hexDigitVal_hexDigitChar (b / 16) (by omega),
        hexDigitVal_hexDigitChar (b % 16) (by omega),
        ih (fun x hx => h x (by simp [hx]))]
    congr 1
    omega

theorem isHexDigitCode_hexDigitChar (n : Nat) (h : n < 16) :
    isHexDigitCode (hexDigitChar n) = true := by
  interval_cases n <;> rfl

theorem bytesToHex_mem (l : List Nat) (h : ∀ x ∈ l, x < 256) :
    ∀ c ∈ bytesToHex l, isHexDigitCode c = true := by
  induction l with
  | nil => simp [bytesToHex]
  | cons b rest ih =>
    have hb : b < 256 := h b (by simp)
    intro c hc
    simp only [bytesToHex, List.mem_cons] at hc
    rcases hc with rfl | rfl | hc
    · exact isHexDigitCode_hexDigitChar _ (by omega)
    · exact isHexDigitCode_hexDigitChar _ (by omega)
    · exact ih (fun x hx => h x (by simp [hx])) c hc

theorem b64Index_b64Char : ∀ n, n < 64 → b64Index (b64Char n) = n := by decide

theorem b64Char_ne_pad : ∀ n, n < 64 → b64Char n ≠ 61 := by decide

theorem b64Char_lt (n : Nat) : b64Char n < 128 := by
  unfold b64Char; split <;> [omega; split <;> [omega; split <;> [omega; split <;> omega]]]

theorem b64Encode_mem : ∀ l : List Nat, ∀ c ∈ b64Encode l, c < 128 := by
  intro l
  induction l using b64Encode.induct with
  | case1 => simp [b64Encode]
  | case2 a =>
    intro c hc
    simp only [b64Encode, List.mem_cons] at hc
    rcases hc with rfl | rfl | rfl | rfl | h
    · exact b64Char_lt _
    · exact b64Char_lt _
    · omega
    · omega
    · simp at h
  | case3 a b =>
    intro c hc
    simp only [b64Encode, List.mem_cons] at hc
    rcases hc with rfl | rfl | rfl | rfl | h
    · exact b64Char_lt _
    · exact b64Char_lt _
    · exact b64Char_lt _
    · omega
    · simp at h
  | case4 a b c rest ih =>
    intro x hx
    simp only [b64Encode, List.mem_cons] at hx
    rcases hx with rfl | rfl | rfl | rfl | hx
    · exact b64Char_lt _
    · exact b64Char_lt _
    · exact b64Char_lt _
    · exact b64Char_lt _
    · exact ih x hx

theorem mul_add_div_small (k q r : Nat) (hk : 0 < k) (hr : r < k) :
    (q * k + r) / k = q := by
  rw [Nat.mul_comm q k, Nat.mul_add_div hk, Nat.div_eq_of_lt hr, Nat.add_zero]

theorem mul_add_mod_small (k q r : Nat) (hr : r < k) : (q * k + r) % k = r := by
  rw [Nat.mul_comm q k, Nat.mul_add_mod, Nat.mod_eq_of_lt hr]

theorem b64Decode_b64Encode : ∀ l : List Nat, (∀ x ∈ l, x < 256) →
    b64Decode (b64Encode l) = l := by
  intro l
  induction l using b64Encode.induct with
  | case1 => intro _; rfl
  | case2 a =>
    intro h
    have ha : a < 256 := h a (by simp)
    have h1 : a / 4 < 64 := by omega
    have h2 : a % 4 * 16 < 64 := by omega
    simp only [b64Encode, b64Decode, stripPad,
      if_neg (b64Char_ne_pad _ h1), if_neg (b64Char_ne_pad _ h2), if_pos rfl]
    simp only [decSx, b64Index_b64Char _ h1, b64Index_b64Char _ h2]
    rw [Nat.mul_div_cancel (a % 4) (by omega)]
    congr 1
    omega
  | case3 a b =>
    intro h
    have ha : a < 256 := h a (by simp)
    have hb : b < 256 := h b (by simp)
    have h1 : a / 4 < 64 := by omega
    have h2 : a % 4 * 16 + b / 16 < 64 := by omega
    have h3 : b % 16 * 4 < 64 := by omega
    simp only [b64Encode, b64Decode, stripPad,
      if_neg (b64Char_ne_pad _ h1), if_neg (b64Char_ne_pad _ h2),
      if_neg (b64Char_ne_pad _ h3), if_pos rfl]
    simp only [decSx, b64Index_b64Char _ h1, b64Index_b64Char _ h2, b64Index_b64Char _ h3]
    rw [mul_add_div_small 16 (a % 4) (b / 16) (by omega) (by omega),
        mul_add_mod_small 16 (a % 4) (b / 16) (by omega),
        Nat.mul_div_cancel (b % 16) (by omega)]
    have e1 : a / 4 * 4 + a % 4 = a := by omega
    have e2 : b / 16 * 16 + b % 16 = b := by omega
    rw [e1, e2]
  | case4 a b c rest ih =>
    intro h
    have ha : a < 256 := h a (by simp)
    have hb : b < 256 := h b (by simp)
    have hc : c < 256 := h c (by simp)
    have h1 : a / 4 < 64 := by omega
    have h2 : a % 4 * 16 + b / 16 < 64 := by omega
    have h3 : b % 16 * 4 + c / 64 < 64 := by omega
    have h4 : c % 64 < 64 := by omega
    have ih' := ih (fun x hx => h x (by simp [hx]))
    simp only [b64Decode] at ih'
    simp only [b64Encode, b64Decode, stripPad,
      if_neg (b64Char_ne_pad _ h1), if_neg (b64Char_ne_pad _ h2),
      if_neg (b64Char_ne_pad _ h3), if_neg (b64Char_ne_pad _ h4)]
    simp only [decSx, b64Index_b64Char _ h1, b64Index_b64Char _ h2,
      b64Index_b64Char _ h3, b64Index_b64Char _ h4, ih']
    rw [mul_add_div_small 16 (a % 4) (b / 16) (by omega) (by omega),
        mul_add_mod_small 16 (a % 4) (b / 16) (by omega),
        mul_add_div_small 4 (b % 16) (c / 64) (by omega) (by omega),
        mul_add_mod_small 4 (b % 16) (c / 64) (by omega)]
    have e1 : a / 4 * 4 + a % 4 = a := by omega
    have e2 : b / 16 * 16 + b % 16 = b := by omega
    have e3 : c / 64 * 64 + c % 64 = c := by omega
    rw [e1, e2, e3]

theorem pkcs7pad_length (l : List Nat) :
    (pkcs7pad l).length = l.length + (16 - l.length % 16) := by
  simp [pkcs7pad]

theorem pkcs7pad_length_dvd (l : List Nat) : 16 ∣ (pkcs7pad l).length := by
  rw [pkcs7pad_length]
  have h2 := Nat.div_add_mod l.length 16
  exact ⟨l.length / 16 + 1, by omega⟩

theorem pkcs7pad_mem (l : List Nat) (h : ∀ x ∈ l, x < 256) :
    ∀ x ∈ pkcs7pad l, x < 256 := by
  intro x hx
  simp only [pkcs7pad, List.mem_append, List.mem_replicate] at hx
  rcases hx with hx | ⟨-, rfl⟩
  · exact h x hx
  · omega

theorem pkcs7unpad_append_replicate (l : List Nat) (n : Nat) (hn : 1 ≤ n) :
    pkcs7unpad (l ++ List.replicate n n) = l := by
  obtain ⟨m, rfl⟩ : ∃ m, n = m + 1 := ⟨n - 1, by omega⟩
  unfold pkcs7unpad
  rw [List.reverse_append, List.reverse_replicate,
    show List.replicate (m + 1) (m + 1) = (m + 1) :: List.replicate m (m + 1) from
      List.replicate_succ ..,
    List.cons_append, List.headD_cons]
  simp only [List.length_append, List.length_cons, List.length_replicate]
  rw [show l.length + (m + 1) - (m + 1) = l.length by omega]
  exact List.take_left' rfl

theorem pkcs7unpad_pkcs7pad (l : List Nat) : pkcs7unpad (pkcs7pad l) = l := by
  simp only [pkcs7pad]
  exact pkcs7unpad_append_replicate l _ (by omega)

theorem chunksF_join : ∀ (sz f : Nat) (l : List Nat), 1 ≤ sz → l.length ≤ f →
    (chunksF sz f l).flatten = l
  | _, _, [], _, _ => by simp [chunksF]
  | _, 0, _ :: _, _, h => by simp at h
  | sz, f + 1, a :: l, hsz, h => by
    have hlen : ((a :: l).drop sz).length ≤ f := by
      simp only [List.length_drop, List.length_cons] at *
      omega
    simp only [chunksF, List.flatten_cons, chunksF_join sz f _ hsz hlen]
    exact List.take_append_drop ..

theorem chunks_join (l : List Nat) : (chunks 16 l).flatten = l :=
  chunksF_join 16 l.length l (by omega) le_rfl

theorem chunksF_of_flatten : ∀ (sz f : Nat) (bl : List (List Nat)), 1 ≤ sz →
    (∀ b ∈ bl, b.length = sz) → bl.length ≤ f → chunksF sz f bl.flatten = bl
  | _, _, [], _, _, _ => by simp [chunksF]
  | _, 0, _ :: _, _, _, h => by simp at h
  | sz, f + 1, b :: bl, hsz, hb, h => by
    have hblen : b.length = sz := hb b (by simp)
    have hb0 : b ≠ [] := by
      intro he
      rw [he] at hblen
      simp only [List.length_nil] at hblen
      omega
    obtain ⟨a, t, rfl⟩ := List.exists_cons_of_ne_nil hb0
    have hbl : bl.length ≤ f := by
      simp only [List.length_cons] at h
      omega
    have ih := chunksF_of_flatten sz f bl hsz (fun x hx => hb x (by simp [hx])) hbl
    show chunksF sz (f + 1) ((a :: t) ++ bl.flatten) = (a :: t) :: bl
    rw [List.cons_append]
    simp only [chunksF]
    rw [← List.cons_append, List.take_left' hblen, List.drop_left' hblen, ih]

theorem chunks_lengths : ∀ (sz f : Nat) (l : List Nat), 1 ≤ sz → sz ∣ l.length →
    l.length ≤ f → ∀ b ∈ chunksF sz f l, b.length = sz
  | _, _, [], _, _, _ => by simp [chunksF]
  | _, 0, _ :: _, _, _, h => by simp at h
  | sz, f + 1, a :: l, hsz, hdvd, h => by
    intro b hbmem
    have hge : sz ≤ (a :: l).length := by
      rcases hdvd with ⟨k, hk⟩
      rcases k with _ | k
      · simp at hk
      · simp only [List.length_cons] at *
        calc sz ≤ sz * (k + 1) := Nat.le_mul_of_pos_right sz (by omega)
        _ = l.length + 1 := by omega
    simp only [chunksF, List.mem_cons] at hbmem
    rcases hbmem with rfl | hbmem
    · simp only [List.length_take]
      omega
    · have hdvd' : sz ∣ ((a :: l).drop sz).length := by
        simp only [List.length_drop]
        exact (Nat.dvd_sub' hdvd (dvd_refl sz))
      have hlen : ((a :: l).drop sz).length ≤ f := by
        simp only [List.length_drop, List.length_cons] at *
        omega
      exact chunks_lengths sz f _ hsz hdvd' hlen b hbmem

theorem chunks_mem : ∀ (sz f : Nat) (l : List Nat), ∀ b ∈ chunksF sz f l, ∀ x ∈ b, x ∈ l
  | _, _, [] => by simp [chunksF]
  | _, 0, _ :: _ => by simp [chunksF]
  | sz, f + 1, a :: l => by
    intro b hbmem x hx
    simp only [chunksF, List.mem_cons] at hbmem
    rcases hbmem with rfl | hbmem
    · exact List.take_subset _ _ hx
    · exact List.drop_subset sz (a :: l) (chunks_mem sz f _ b hbmem x hx)

theorem cbcE_spec (E D : List Nat → List Nat) (h : BlockFun E D) :
    ∀ (bs : List (List Nat)) (prev : List Nat), prev.length = 16 →
    (∀ x ∈ prev, x < 256) →
    (∀ b ∈ bs, b.length = 16 ∧ ∀ x ∈ b, x < 256) →
    ∀ c ∈ cbcE E prev bs, c.length = 16 ∧ ∀ x ∈ c, x < 256
  | [], _, _, _, _ => by simp [cbcE]
  | b :: bs, prev, hpl, hpb, hbs => by
    have hb := hbs b (by simp)
    have hxl : (xorB prev b).length = 16 := by simp [xorB_length, hpl, hb.1]
    have hxb : ∀ x ∈ xorB prev b, x < 256 := xorB_lt prev b hpb hb.2
    have hE := h (xorB prev b) hxl hxb
    intro c hc
    simp only [cbcE, List.mem_cons] at hc
    rcases hc with rfl | hc
    · exact ⟨hE.1, hE.2.1⟩
    · exact cbcE_spec E D h bs (E (xorB prev b)) hE.1 hE.2.1
        (fun u hu => hbs u (by simp [hu])) c hc

theorem cbcD_cbcE (E D : List Nat → List Nat) (h : BlockFun E D) :
    ∀ (bs : List (List Nat)) (prev : List Nat), prev.length = 16 →
    (∀ x ∈ prev, x < 256) →
    (∀ b ∈ bs, b.length = 16 ∧ ∀ x ∈ b, x < 256) →
    cbcD D prev (cbcE E prev bs) = bs
  | [], _, _, _, _ => rfl
  | b :: bs, prev, hpl, hpb, hbs => by
    have hb := hbs b (by simp)
    have hxl : (xorB prev b).length = 16 := by simp [xorB_length, hpl, hb.1]
    have hxb : ∀ x ∈ xorB prev b, x < 256 := xorB_lt prev b hpb hb.2
    have hE := h (xorB prev b) hxl hxb
    have ih := cbcD_cbcE E D h bs (E (xorB prev b)) hE.1 hE.2.1
      (fun u hu => hbs u (by simp [hu]))
    simp only [cbcE, cbcD, ih, hE.2.2]
    rw [xorB_xorB prev b (by omega)]

theorem flatten_blocks_length : ∀ bl : List (List Nat), (∀ b ∈ bl, b.length = 16) →
    bl.flatten.length = 16 * bl.length
  | [], _ => rfl
  | b :: bl, h => by
    simp only [List.flatten_cons, List.length_append, List.length_cons,
      flatten_blocks_length bl (fun u hu => h u (by simp [hu])), h b (by simp)]
    omega

theorem chunks_of_flatten (bl : List (List Nat)) (h : ∀ b ∈ bl, b.length = 16) :
    chunks 16 bl.flatten = bl := by
  unfold chunks
  exact chunksF_of_flatten 16 _ bl (by omega) h
    (by rw [flatten_blocks_length bl h]; omega)

theorem utf8ValidF_ascii : ∀ (l : List Nat) (f : Nat), l.length ≤ f →
    (∀ x ∈ l, x < 128) → utf8ValidF f 0 l = true
  | [], _, _, _ => by simp [utf8ValidF]
  | _ :: _, 0, h, _ => by simp at h
  | b :: rest, f + 1, h, hal => by
    have hb : b < 128 := hal b (by simp)
    simp only [utf8ValidF, if_pos hb]
    exact utf8ValidF_ascii rest f (by simp only [List.length_cons] at h; omega)
      (fun x hx => hal x (by simp [hx]))

theorem utf8Valid_of_ascii (l : List Nat) (h : ∀ x ∈ l, x < 128) :
    utf8Valid l = true :=
  utf8ValidF_ascii l l.length le_rfl h

theorem idCipher_blockCipher : BlockCipher idCipher idCipher :=
  fun _ _ _ hl hb => ⟨hl, hb, rfl⟩

/-- Shared round-trip core: decrypting what `encryptText` produced restores
the plaintext bytes, for any block cipher satisfying the contract, any key
string, and any IV string that hex-parses to 16 bytes. -/
theorem decryptText_encryptText (E D : List Nat → List Nat → List Nat)
    (hED : BlockCipher E D) (P key ivHex : List Nat)
    (hP : utf8Valid P = true) (hPb : ∀ x ∈ P, x < 256)
    (hiv : (hexParse ivHex).length = 16) :
    decryptText D (encryptText E P key ivHex).ciphertext key ivHex = some P := by
  have hkb : ∀ x ∈ hexParse key, x < 256 := hexParse_lt key
  have hivb : ∀ x ∈ hexParse ivHex, x < 256 := hexParse_lt ivHex
  have hBF : BlockFun (E (hexParse key)) (D (hexParse key)) := hED (hexParse key) hkb
  have hpadb : ∀ x ∈ pkcs7pad P, x < 256 := pkcs7pad_mem P hPb
  have hblocks : ∀ b ∈ chunks 16 (pkcs7pad P), b.length = 16 ∧ ∀ x ∈ b, x < 256 := by
    intro b hb
    exact ⟨chunks_lengths 16 _ _ (by omega) (pkcs7pad_length_dvd P) le_rfl b hb,
      fun x hx => hpadb x (chunks_mem 16 _ _ b hb x hx)⟩
  have hcb : ∀ c ∈ cbcE (E (hexParse key)) (hexParse ivHex) (chunks 16 (pkcs7pad P)),
      c.length = 16 ∧ ∀ x ∈ c, x < 256 :=
    cbcE_spec _ _ hBF _ _ hiv hivb hblocks
  have hflatb : ∀ x ∈ (cbcE (E (hexParse key)) (hexParse ivHex)
      (chunks 16 (pkcs7pad P))).flatten, x < 256 := by
    intro x hx
    obtain ⟨c, hc, hxc⟩ := List.mem_flatten.mp hx
    exact (hcb c hc).2 x hxc
  simp only [encryptText, decryptText]
  rw [b64Decode_b64Encode _ hflatb,
    chunks_of_flatten _ (fun c hc => (hcb c hc).1),
    cbcD_cbcE _ _ hBF _ _ hiv hivb hblocks,
    chunks_join, pkcs7unpad_pkcs7pad, hP]
  simp

/-- C1: for every plaintext (a UTF-8 byte sequence) and every key string,
decrypting the output of `encryptText` with the same key and the returned IV
restores the plaintext exactly, for any block cipher satisfying the AES
contract. -/
theorem C1_text_round_trip (E D : List Nat → List Nat → List Nat)
    (hED : BlockCipher E D) (P key ivHex : List Nat)
    (hP : utf8Valid P = true) (hPb : ∀ x ∈ P, x < 256)
    (hiv : (hexParse ivHex).length = 16) :
    decryptText D (encryptText E P key ivHex).ciphertext key
      (encryptText E P key ivHex).iv = some P :=
  decryptText_encryptText E D hED P key ivHex hP hPb hiv

/-- Witness for C1 at the plaintext "hi", an all-zero 64-character hex key and
an all-zero 32-character hex IV, under the identity block transform. -/
theorem C1_text_round_trip_witness :
    decryptText idCipher
      (encryptText idCipher [104, 105] (List.replicate 64 48) (List.replicate 32 48)).ciphertext
      (List.replicate 64 48)
      (encryptText idCipher [104, 105] (List.replicate 64 48) (List.replicate 32 48)).iv
      = some [104, 105] :=
  C1_text_round_trip idCipher idCipher idCipher_blockCipher [104, 105]
    (List.replicate 64 48) (List.replicate 32 48) (by decide) (by decide) (by decide)

/-- C3: encrypting a file buffer and decrypting the result with the returned
IV restores the exact bytes; the buffer travels base64-encoded through the
text-oriented cipher and is decoded back afterwards. -/
theorem C3_file_round_trip (E D : List Nat → List Nat → List Nat)
    (hED : BlockCipher E D) (f : FileInput) (key ivHex : List Nat)
    (hc : ∀ x ∈ f.content, x < 256) (hiv : (hexParse ivHex).length = 16) :
    decryptFile D (encryptFile E f key ivHex).encryptedData key
      (encryptFile E f key ivHex).iv = some f.content := by
  have hasc : ∀ x ∈ b64Encode f.content, x < 128 := b64Encode_mem f.content
  have hP : utf8Valid (b64Encode f.content) = true := utf8Valid_of_ascii _ hasc
  have hPb : ∀ x ∈ b64Encode f.content, x < 256 := fun x hx => by
    have := hasc x hx; omega
  have h := decryptText_encryptText E D hED (b64Encode f.content) key ivHex hP hPb hiv
  show decryptFile D (encryptText E (b64Encode f.content) key ivHex).ciphertext key
      ivHex = some f.content
  unfold decryptFile
  rw [h]
  show some (b64Decode (b64Encode f.content)) = some f.content
  rw [b64Decode_b64Encode f.content hc]

/-- Witness for C3 at the three-byte file content `[1, 2, 3]`. -/
theorem C3_file_round_trip_witness :
    decryptFile idCipher
      (encryptFile idCipher ⟨[1, 2, 3], [102], [116]⟩ (List.replicate 64 48)
        (List.replicate 32 48)).encryptedData
      (List.replicate 64 48)
      (encryptFile idCipher ⟨[1, 2, 3], [102], [116]⟩ (List.replicate 64 48)
        (List.replicate 32 48)).iv
      = some [1, 2, 3] :=
  C3_file_round_trip idCipher idCipher idCipher_blockCipher ⟨[1, 2, 3], [102], [116]⟩
    (List.replicate 64 48) (List.replicate 32 48) (by decide) (by decide)

/-- Counterexample to C2 at a concrete malformed input: the single block
`[65 × 15, 0]` fails PKCS7 validation (a pad count of 0 is never valid), yet
`decryptText` returns it as a successful plaintext rather than an explicit
failure — the blind unpad removes nothing and the bytes decode as UTF-8. -/
theorem C2_failure_counterexample :
    pkcs7Valid (cbcD (idCipher (hexParse (List.replicate 64 48)))
        (hexParse (List.replicate 32 48))
        (chunks 16 (b64Decode (b64Encode (List.replicate 15 65 ++ [0]))))).flatten = false ∧
    decryptText idCipher (b64Encode (List.replicate 15 65 ++ [0]))
      (List.replicate 64 48) (List.replicate 32 48)
      = some (List.replicate 15 65 ++ [0]) := by
  constructor
  · decide
  · decide

/-- C2 amended: `decryptText` never throws — each outcome is the explicit
`null` failure or the blindly-unpadded byte string — and the `null` path is
taken exactly when those bytes fail UTF-8 decoding.  Padding itself is never
validated, so malformed input whose bytes happen to decode is returned as
(possibly corrupted) plaintext. -/
theorem C2_decrypt_failure_modes (D : List Nat → List Nat → List Nat)
    (ct key ivHex : List Nat) :
    (decryptText D ct key ivHex = none ↔
      utf8Valid (pkcs7unpad (cbcD (D (hexParse key)) (hexParse ivHex)
        (chunks 16 (b64Decode ct))).flatten) = false) ∧
    (decryptText D ct key ivHex = none ∨
      decryptText D ct key ivHex = some (pkcs7unpad (cbcD (D (hexParse key))
        (hexParse ivHex) (chunks 16 (b64Decode ct))).flatten)) := by
  simp only [decryptText]
  by_cases h : utf8Valid (pkcs7unpad (cbcD (D (hexParse key)) (hexParse ivHex)
      (chunks 16 (b64Decode ct))).flatten) = true
  · rw [if_pos h]
    constructor
    · constructor
      · intro hc
        cases hc
      · intro hf
        rw [h] at hf
        cases hf
    · exact Or.inr rfl
  · rw [if_neg h]
    constructor
    · constructor
      · intro _
        simpa using h
      · intro _
        rfl
    · exact Or.inl rfl

/-- C4: the createSecret request depends on the key only through the cipher
outputs — two keys yielding the same text and file ciphertexts yield
literally identical requests — and the request record has fields for
ciphertext, IV, PIN digest, metadata and file envelopes only, so no field
carries the key itself. -/
theorem C4_key_not_in_request (E : List Nat → List Nat → List Nat)
    (k1 k2 secretText : List Nat) (usePin : Bool) (pin : List Nat)
    (expiry : Nat) (oneTime : Bool) (files : List FileInput)
    (textIv : List Nat) (fileIvs : List (List Nat))
    (hText : encryptText E (effectiveSecretText secretText) k1 textIv
      = encryptText E (effectiveSecretText secretText) k2 textIv)
    (hFiles : ∀ (f : FileInput) (iv : List Nat),
      encryptFile E f k1 iv = encryptFile E f k2 iv) :
    handleCreate E k1 secretText usePin pin expiry oneTime files textIv fileIvs
      = handleCreate E k2 secretText usePin pin expiry oneTime files textIv fileIvs := by
  have hmap : ((files.zip fileIvs).map fun fi => encryptFile E fi.1 k1 fi.2)
      = ((files.zip fileIvs).map fun fi => encryptFile E fi.1 k2 fi.2) :=
    List.map_congr_left (fun fi _ => hFiles fi.1 fi.2)
  simp only [handleCreate, hText, hmap]

/-- Witness for C4, with both keys the all-zero hex key so that the cipher
outputs coincide definitionally. -/
theorem C4_key_not_in_request_witness :
    handleCreate idCipher (List.replicate 64 48) [104] true [49, 50, 51, 52] 60 true
      [] (List.replicate 32 48) []
      = handleCreate idCipher (List.replicate 64 48) [104] true [49, 50, 51, 52] 60 true
        [] (List.replicate 32 48) [] :=
  C4_key_not_in_request idCipher (List.replicate 64 48) (List.replicate 64 48) [104]
    true [49, 50, 51, 52] 60 true [] (List.replicate 32 48) [] rfl (fun _ _ => rfl)

/-- All outcomes after the record is gone are Gone. -/
theorem runViews_none_gone : ∀ reqs : List (Option (List Nat) × Nat),
    runViews none reqs = List.replicate reqs.length ViewOutcome.gone
  | [] => rfl
  | (pin, t) :: rest => by
    simp only [runViews, viewStep, runViews_none_gone rest, List.length_cons,
      List.replicate_succ]

theorem runViews_none_count (reqs : List (Option (List Nat) × Nat)) :
    (runViews none reqs).count ViewOutcome.success = 0 := by
  rw [runViews_none_gone]
  induction reqs.length with
  | zero => rfl
  | succ n ih =>
    rw [List.replicate_succ, List.count_cons, ih]
    simp

/-- Shape analysis of one view transition on a one-time envelope: either it
succeeds and deletes the record in the same transition, or it does not
succeed and the store is unchanged or emptied. -/
theorem viewStep_cases (e : Envelope) (pin : Option (List Nat)) (t : Nat)
    (hot : e.oneTimeView = true) :
    viewStep (some e) pin t = (ViewOutcome.success, none) ∨
    ((viewStep (some e) pin t).1 ≠ ViewOutcome.success ∧
      ((viewStep (some e) pin t).2 = none ∨ (viewStep (some e) pin t).2 = some e)) := by
  by_cases h1 : e.expiresAt < t
  · simp [viewStep, h1]
  by_cases hv : e.viewed = true
  · have h2 : e.oneTimeView = true ∧ e.viewed = true := ⟨hot, hv⟩
    simp [viewStep, h1, h2]
  by_cases h3 : e.pinHash.isSome = true ∧ pin ≠ e.pinHash
  · simp [viewStep, h1, hv, h3]
  · simp [viewStep, h1, hv, h3, hot]

theorem runViews_oneTime_count : ∀ (reqs : List (Option (List Nat) × Nat))
    (store : Option Envelope), (∀ e, store = some e → e.oneTimeView = true) →
    (runViews store reqs).count ViewOutcome.success ≤ 1 := by
  intro reqs
  induction reqs with
  | nil => intro store _; simp [runViews]
  | cons r rest ih =>
    intro store h
    obtain ⟨pin, t⟩ := r
    cases store with
    | none =>
      rw [runViews_none_gone, List.length_cons, List.replicate_succ, List.count_cons]
      have h0 : (List.replicate rest.length ViewOutcome.gone).count ViewOutcome.success
          = 0 := by
        rw [← runViews_none_gone rest]
        exact runViews_none_count rest
      rw [h0]
      simp
    | some e =>
      have hot := h e rfl
      rcases viewStep_cases e pin t hot with hcase | ⟨hne, hstore⟩
      · simp only [runViews, hcase, List.count_cons, runViews_none_count rest]
        simp
      · simp only [runViews, List.count_cons]
        have hrec : (runViews (viewStep (some e) pin t).2 rest).count
            ViewOutcome.success ≤ 1 := by
          rcases hstore with h2 | h2
          · rw [h2]; exact ih none (by intro e' he'; cases he')
          · rw [h2]; exact ih (some e) h
        have hbeq : ((viewStep (some e) pin t).1 == ViewOutcome.success) = false :=
          beq_eq_false_iff_ne.mpr hne
        rw [hbeq]
        simpa using hrec

/-- C5 (modelled from the spec, as the backend is not among the sources):
for a one-time envelope, at most one request in any sequence of view
requests succeeds; a successful step deletes the record in the same atomic
transition, after which every request — with any PIN, at any time — gets
Gone; and a correct view of a live, unexpired envelope does succeed. -/
theorem C5_one_time_view (e : Envelope) (reqs : List (Option (List Nat) × Nat))
    (hot : e.oneTimeView = true) :
    (runViews (some e) reqs).count ViewOutcome.success ≤ 1 ∧
    (∀ pin t, (viewStep (some e) pin t).1 = ViewOutcome.success →
      (viewStep (some e) pin t).2 = none ∧
        ∀ later : List (Option (List Nat) × Nat),
          runViews none later = List.replicate later.length ViewOutcome.gone) ∧
    (∀ pin t, ¬ e.expiresAt < t → e.viewed = false →
      (e.pinHash.isSome = true → pin = e.pinHash) →
      (viewStep (some e) pin t).1 = ViewOutcome.success) := by
  refine ⟨runViews_oneTime_count reqs (some e) (by intro e' he'; cases he'; exact hot),
    ?_, ?_⟩
  · intro pin t hsucc
    rcases viewStep_cases e pin t hot with hc | ⟨hne, -⟩
    · rw [hc]
      exact ⟨rfl, runViews_none_gone⟩
    · exact absurd hsucc hne
  · intro pin t h1 h2 h3
    simp only [viewStep]
    rw [if_neg h1,
      if_neg (by rintro ⟨-, hv⟩; rw [h2] at hv; cases hv),
      if_neg (by rintro ⟨hs, hne⟩; exact hne (h3 hs)),
      if_pos hot]

/-- Witness for C5: a one-time PIN-gated envelope and two identical correct
view requests. -/
theorem C5_one_time_view_witness :
    Envelope.oneTimeView ⟨some [49], true, 100, false⟩ = true ∧
    ((runViews (some ⟨some [49], true, 100, false⟩)
        [(some [49], 5), (some [49], 6)]).count ViewOutcome.success ≤ 1 ∧
      (∀ pin t, (viewStep (some ⟨some [49], true, 100, false⟩) pin t).1
          = ViewOutcome.success →
        (viewStep (some ⟨some [49], true, 100, false⟩) pin t).2 = none ∧
          ∀ later : List (Option (List Nat) × Nat),
            runViews none later = List.replicate later.length ViewOutcome.gone) ∧
      (∀ pin t, ¬ (⟨some [49], true, 100, false⟩ : Envelope).expiresAt < t →
        (⟨some [49], true, 100, false⟩ : Envelope).viewed = false →
        ((⟨some [49], true, 100, false⟩ : Envelope).pinHash.isSome = true →
          pin = (⟨some [49], true, 100, false⟩ : Envelope).pinHash) →
        (viewStep (some ⟨some [49], true, 100, false⟩) pin t).1
          = ViewOutcome.success)) :=
  ⟨rfl, C5_one_time_view ⟨some [49], true, 100, false⟩ [(some [49], 5), (some [49], 6)] rfl⟩

/-- C6: `generateEncryptionKey` hex-encodes its 32 random bytes into a
64-character hex string that parses back to exactly those bytes, and
`generateIV` encodes its 16 random bytes into a 32-character hex string
likewise. -/
theorem C6_generate_key_iv (r32 r16 : List Nat)
    (h32 : r32.length = 32) (hb32 : ∀ x ∈ r32, x < 256)
    (h16 : r16.length = 16) (hb16 : ∀ x ∈ r16, x < 256) :
    (generateEncryptionKey r32).length = 64 ∧
    (∀ c ∈ generateEncryptionKey r32, isHexDigitCode c = true) ∧
    hexParse (generateEncryptionKey r32) = r32 ∧
    (generateIV r16).length = 32 ∧
    (∀ c ∈ generateIV r16, isHexDigitCode c = true) ∧
    hexParse (generateIV r16) = r16 := by
  unfold generateEncryptionKey generateIV
  exact ⟨by rw [bytesToHex_length, h32], bytesToHex_mem r32 hb32,
    hexParse_bytesToHex r32 hb32, by rw [bytesToHex_length, h16],
    bytesToHex_mem r16 hb16, hexParse_bytesToHex r16 hb16⟩

/-- Witness for C6 at concrete 32-byte and 16-byte random draws. -/
theorem C6_generate_key_iv_witness :
    (generateEncryptionKey (List.replicate 32 7)).length = 64 ∧
    (∀ c ∈ generateEncryptionKey (List.replicate 32 7), isHexDigitCode c = true) ∧
    hexParse (generateEncryptionKey (List.replicate 32 7)) = List.replicate 32 7 ∧
    (generateIV (List.replicate 16 9)).length = 32 ∧
    (∀ c ∈ generateIV (List.replicate 16 9), isHexDigitCode c = true) ∧
    hexParse (generateIV (List.replicate 16 9)) = List.replicate 16 9 :=
  C6_generate_key_iv (List.replicate 32 7) (List.replicate 16 9)
    (by decide) (by decide) (by decide) (by decide)

/-- Counterexample to C7 at a concrete input: the empty key string is not 64
hex characters, yet `decryptText` with it performs a full successful
decryption instead of rejecting with any length failure — no
`InvalidKeyOrIvLength` check exists in the source. -/
theorem C7_no_validation_counterexample :
    ([] : List Nat).length ≠ 64 ∧
    decryptText idCipher
      (encryptText idCipher [104, 105] [] (List.replicate 32 48)).ciphertext
      [] (List.replicate 32 48) = some [104, 105] := by
  constructor
  · decide
  · decide

/-- C7 amended: neither `encryptText` nor `decryptText` validates key or IV
length; a key string of any length — in particular one that is not 64 hex
characters — is hex-parsed and handed straight to the cipher, and decryption
of the produced ciphertext still succeeds rather than failing with a length
error. -/
theorem C7_no_length_validation (E D : List Nat → List Nat → List Nat)
    (hED : BlockCipher E D) (P key ivHex : List Nat)
    (hkey : key.length ≠ 64) (hP : utf8Valid P = true) (hPb : ∀ x ∈ P, x < 256)
    (hiv : (hexParse ivHex).length = 16) :
    decryptText D (encryptText E P key ivHex).ciphertext key
      (encryptText E P key ivHex).iv = some P :=
  decryptText_encryptText E D hED P key ivHex hP hPb hiv

/-- Witness for the amended C7 at the empty key. -/
theorem C7_no_length_validation_witness :
    decryptText idCipher
      (encryptText idCipher [104] [] (List.replicate 32 48)).ciphertext
      [] (encryptText idCipher [104] [] (List.replicate 32 48)).iv = some [104] :=
  C7_no_length_validation idCipher idCipher idCipher_blockCipher [104] []
    (List.replicate 32 48) (by decide) (by decide) (by decide) (by decide)

/-- C8: `hashPin` is the hex-encoded SHA-256 digest of the UTF-8 bytes of the
PIN (a pure function, hence deterministic across calls); at the PINs "1234"
and "12345" it computes the standard SHA-256 digests, and the two differ. -/
theorem C8_hashPin_sha256 :
    (∀ pin : List Nat, hashPin pin = bytesToHex (sha256 pin)) ∧
    hashPin [49, 50, 51, 52] = bytesToHex
      [0x03, 0xac, 0x67, 0x42, 0x16, 0xf3, 0xe1, 0x5c, 0x76, 0x1e, 0xe1, 0xa5, 0xe2, 0x55,
       0xf0, 0x67, 0x95, 0x36, 0x23, 0xc8, 0xb3, 0x88, 0xb4, 0x45, 0x9e, 0x13, 0xf9, 0x78,
       0xd7, 0xc8, 0x46, 0xf4] ∧
    hashPin [49, 50, 51, 52, 53] = bytesToHex
      [0x59, 0x94, 0x47, 0x1a, 0xbb, 0x01, 0x11, 0x2a, 0xfc, 0xc1, 0x81, 0x59, 0xf6, 0xcc,
       0x74, 0xb4, 0xf5, 0x11, 0xb9, 0x98, 0x06, 0xda, 0x59, 0xb3, 0xca, 0xf5, 0xa9, 0xc1,
       0x73, 0xca, 0xcf, 0xc5] ∧
    hashPin [49, 50, 51, 52] ≠ hashPin [49, 50, 51, 52, 53] :=
  ⟨fun _ => rfl,
   by set_option maxRecDepth 40000 in decide,
   by set_option maxRecDepth 40000 in decide,
   by set_option maxRecDepth 40000 in decide⟩

/-- C9: a file list satisfying the admission-control invariant still
satisfies it after any selection, and a selection that would exceed either
bound is rejected with the list unchanged (no encryption or network call is
reached in that case). -/
theorem C9_file_admission (files selected : List Nat) (h : fileInv files) :
    fileInv (handleFileSelect files selected) ∧
    ((files.length + selected.length > MAX_FILES ∨
      files.sum + selected.sum > MAX_FILE_SIZE) →
      handleFileSelect files selected = files) := by
  unfold handleFileSelect
  constructor
  · split
    · exact h
    · split
      · exact h
      · rename_i h1 h2
        unfold fileInv MAX_FILES MAX_FILE_SIZE at *
        simp only [List.length_append, List.sum_append]
        omega
  · intro hor
    split
    · rfl
    · split
      · rfl
      · rename_i h1 h2
        exact absurd hor (not_or.mpr ⟨h1, h2⟩)

/-- Witness for C9: one held file of 100 bytes and a rejected selection that
would exceed the aggregate size bound. -/
theorem C9_file_admission_witness :
    fileInv (handleFileSelect [100] [20971520]) ∧
    (([100].length + [20971520].length > MAX_FILES ∨
      List.sum [100] + List.sum [20971520] > MAX_FILE_SIZE) →
      handleFileSelect [100] [20971520] = [100]) :=
  C9_file_admission [100] [20971520]
    ⟨by norm_num [MAX_FILES], by norm_num [MAX_FILE_SIZE]⟩

/-- C10: with empty secret text, the creation flow encrypts a single space
in its place, so the stored text ciphertext decrypts to " " (byte 32) and
never to the empty string. -/
theorem C10_empty_text_space (E D : List Nat → List Nat → List Nat)
    (hED : BlockCipher E D) (key : List Nat) (usePin : Bool) (pin : List Nat)
    (expiry : Nat) (oneTime : Bool) (files : List FileInput)
    (textIv : List Nat) (fileIvs : List (List Nat))
    (hiv : (hexParse textIv).length = 16) :
    decryptText D
      (handleCreate E key [] usePin pin expiry oneTime files textIv fileIvs).encryptedData
      key
      (handleCreate E key [] usePin pin expiry oneTime files textIv fileIvs).iv
      = some [32] ∧ ([32] : List Nat) ≠ ([] : List Nat) := by
  constructor
  · show decryptText D (encryptText E [32] key textIv).ciphertext key
      (encryptText E [32] key textIv).iv = some [32]
    exact decryptText_encryptText E D hED [32] key textIv (by decide) (by decide) hiv
  · decide

/-- Witness for C10 with a file attached (the reachable case for empty
text). -/
theorem C10_empty_text_space_witness :
    decryptText idCipher
      (handleCreate idCipher (List.replicate 64 48) [] false [] 60 true
        [⟨[1], [102], [116]⟩] (List.replicate 32 48)
        [List.replicate 32 48]).encryptedData
      (List.replicate 64 48)
      (handleCreate idCipher (List.replicate 64 48) [] false [] 60 true
        [⟨[1], [102], [116]⟩] (List.replicate 32 48)
        [List.replicate 32 48]).iv
      = some [32] ∧ ([32] : List Nat) ≠ ([] : List Nat) :=
  C10_empty_text_space idCipher idCipher idCipher_blockCipher (List.replicate 64 48)
    false [] 60 true [⟨[1], [102], [116]⟩] (List.replicate 32 48)
    [List.replicate 32 48] (by decide)

end CipherShare
